import Mathlib

/-!
Verification of the ANGLE Vulkan command-submission engine
(src/libANGLE/renderer/vulkan/CommandProcessor.h).

The header declares the `CommandQueue` (submission engine) and
`CommandProcessor` (async dispatcher) classes; a few operations are inline
in the header (`checkCompletedCommands`, `checkAndCleanupCompletedCommands`,
`hasResourceUseFinished` / `hasResourceUseSubmitted`, `hasFinishedCommands`,
the queue-limit constants and their static assertion).  The bodies of the
remaining operations are declared in the header and described by the spec;
those are modelled from the spec, with a doc comment saying so.
-/

namespace AngleVk

/-- Serial: uint64_t monotonic counter in the source, modelled as Nat. -/
abbrev Serial := Nat

/-- SerialIndex: index of a logically independent submission context. -/
abbrev SerialIndex := Nat

/-- QueueSerial: a serial scoped to a serial index (vk_helpers declaration;
spec section 3: comparable only within the same index). -/
structure QueueSerial where
  index : SerialIndex
  serial : Serial
deriving DecidableEq, Repr

/-- Modelled from the spec: `ResourceUse` (declared in vk_helpers.h, not in
src/) is a mapping from serial index to the highest serial at which the
resource was referenced.  Modelled as a list of serials indexed by position;
indices not present in the list are not recorded in the use. -/
abbrev ResourceUse := List Serial

/-- One in-flight submission batch: its queue serial.  The command buffers,
protection type and fence payload of `CommandBatch` are opaque to the
ordering/watermark logic verified here. -/
structure CommandBatch where
  index : SerialIndex
  serial : Serial
deriving DecidableEq, Repr

/-- Watermark arrays (`AtomicQueueSerialFixedArray`): per-index highest
serial, modelled as a function from index to serial. -/
abbrev SerialArray := SerialIndex → Serial

/-- Store a serial into a watermark array at one index
(`AtomicQueueSerialFixedArray::setQueueSerial`). -/
def setSerial (w : SerialArray) (i : SerialIndex) (s : Serial) : SerialArray :=
  fun j => if j = i then s else w j

/-- Advance the completed watermark to a finished batch's serial. -/
def advanceCompleted (w : SerialArray) (b : CommandBatch) : SerialArray :=
  setSerial w b.index b.serial

/-- State of the submission engine: the in-flight queue, the finished queue
and the three watermark arrays (`mInFlightCommands`, `mFinishedCommandBatches`,
`mLastCompletedSerials`, `mLastSubmittedSerials` of `CommandQueue`, and
`mLastEnqueuedSerials` of `CommandProcessor`). -/
structure EngineState where
  inFlight : List CommandBatch
  finished : List CommandBatch
  lastCompletedSerials : SerialArray
  lastSubmittedSerials : SerialArray
  lastEnqueuedSerials : SerialArray

/-- Modelled from the spec: the `operator<=` between a `ResourceUse` and a
serial array (vk_helpers, not in src/): every serial recorded in the use is
at or below the array's watermark for its index. -/
def resourceUseLE (use : ResourceUse) (w : SerialArray) : Bool :=
  (List.range use.length).all fun i => decide (use.getD i 0 ≤ w i)

/-- `CommandQueue::hasResourceUseFinished`: `use <= mLastCompletedSerials`. -/
def hasResourceUseFinished (st : EngineState) (use : ResourceUse) : Bool :=
  resourceUseLE use st.lastCompletedSerials

/-- `CommandQueue::hasQueueSerialFinished`: `queueSerial <= mLastCompletedSerials`. -/
def hasQueueSerialFinished (st : EngineState) (qs : QueueSerial) : Bool :=
  decide (qs.serial ≤ st.lastCompletedSerials qs.index)

/-- `CommandQueue::hasResourceUseSubmitted`: `use <= mLastSubmittedSerials`. -/
def hasResourceUseSubmitted (st : EngineState) (use : ResourceUse) : Bool :=
  resourceUseLE use st.lastSubmittedSerials

/-- `CommandQueue::hasQueueSerialSubmitted`: `queueSerial <= mLastSubmittedSerials`. -/
def hasQueueSerialSubmitted (st : EngineState) (qs : QueueSerial) : Bool :=
  decide (qs.serial ≤ st.lastSubmittedSerials qs.index)

/-- `CommandQueue::hasFinishedCommands`: `!mFinishedCommandBatches.empty()`. -/
def hasFinishedCommands (st : EngineState) : Bool :=
  !st.finished.isEmpty

/-- Modelled from the spec: the walk of `checkCompletedCommandsLocked`
(body not in src/; header comment: walk `mInFlightCommands`, check and
update `mLastCompletedSerials` for all commands that are finished; spec:
stop at the first not-yet-signaled batch, move every signaled batch of the
prefix to the finished queue, advance the completed watermark of its index
to its serial).  `signaled` is the fence-status oracle.  Returns the
remaining in-flight queue, the batches moved to finished (in order), and
the updated completed-watermark array. -/
def checkCompletedLoop (signaled : CommandBatch → Bool) :
    List CommandBatch → SerialArray →
      List CommandBatch × List CommandBatch × SerialArray
  | [], completed => ([], [], completed)
  | b :: rest, completed =>
    if signaled b then
      let r := checkCompletedLoop signaled rest (advanceCompleted completed b)
      (r.1, b :: r.2.1, r.2.2)
    else
      (b :: rest, [], completed)

/-- Modelled from the spec: `CommandQueue::checkCompletedCommandsLocked`
applied to the engine state (see `checkCompletedLoop`). -/
def checkCompletedCommandsLocked (signaled : CommandBatch → Bool)
    (st : EngineState) : EngineState :=
  let r := checkCompletedLoop signaled st.inFlight st.lastCompletedSerials
  { st with
    inFlight := r.1
    finished := st.finished ++ r.2.1
    lastCompletedSerials := r.2.2 }

/-- `CommandQueue::checkCompletedCommands`: takes `mCmdCompleteMutex` and
calls `checkCompletedCommandsLocked` (inline in the header). -/
def checkCompletedCommands (signaled : CommandBatch → Bool)
    (st : EngineState) : EngineState :=
  checkCompletedCommandsLocked signaled st

/-- Native Vulkan error codes that a queue submission may fail with. -/
inductive VkError where
  | deviceLost
  | outOfHostMemory
  | outOfDeviceMemory
deriving DecidableEq, Repr

/-- Modelled from the spec: `CommandQueue::queueSubmitLocked` (body not in
src/).  `native` is the result of the native vkQueueSubmit call.  On success
the batch is appended to the in-flight queue and the submitted watermark of
its index advances to its serial; on failure the error is returned to the
caller, the state is unchanged and there is no retry. -/
def queueSubmitLocked (native : Option VkError) (batch : CommandBatch)
    (st : EngineState) : Option VkError × EngineState :=
  match native with
  | some e => (some e, st)
  | none =>
    (none,
      { st with
        inFlight := st.inFlight ++ [batch]
        lastSubmittedSerials :=
          setSerial st.lastSubmittedSerials batch.index batch.serial })

/-- Modelled from the spec: `CommandQueue::submitCommands` builds the batch
and submit descriptor and then reaches `queueSubmitLocked`; the
queue-mutation and watermark behaviour is that of `queueSubmitLocked`. -/
def submitCommands (native : Option VkError) (batch : CommandBatch)
    (st : EngineState) : Option VkError × EngineState :=
  queueSubmitLocked native batch st

/-- Modelled from the spec: `CommandQueue::queueSubmitOneOff` takes the same
path through `queueSubmitLocked` for a caller-provided command buffer. -/
def queueSubmitOneOff (native : Option VkError) (batch : CommandBatch)
    (st : EngineState) : Option VkError × EngineState :=
  queueSubmitLocked native batch st

/-- Modelled from the spec: the first phase of `CommandQueue::handleDeviceLost`
(body not in src/): force-move every in-flight batch to the finished queue
without waiting on fences and advance the completed watermarks to match the
submitted watermarks for all indices. -/
def onDeviceLostCompleteInFlight (st : EngineState) : EngineState :=
  { st with
    inFlight := []
    finished := st.finished ++ st.inFlight
    lastCompletedSerials := st.lastSubmittedSerials }

/-- Modelled from the spec: `CommandQueue::releaseFinishedCommandsLocked`
(body not in src/): drain the finished queue, returning buffers and fences
to their pools (the recycled payloads are opaque here). -/
def releaseFinishedCommandsLocked (st : EngineState) : EngineState :=
  { st with finished := [] }

/-- Modelled from the spec: `CommandQueue::handleDeviceLost`: force-complete
all in-flight work, then release all resources without polling. -/
def handleDeviceLost (st : EngineState) : EngineState :=
  releaseFinishedCommandsLocked (onDeviceLostCompleteInFlight st)

/-- `CommandQueue::checkAndCleanupCompletedCommands`, inline in the header:
run the completion check (propagating its error via ANGLE_TRY), then release
finished commands only if `mFinishedCommandBatches` is non-empty.  The
completion check and the release step are the `check` and `rel` parameters
(their bodies live outside the header). -/
def checkAndCleanupCompletedCommands
    (check rel : EngineState → Option VkError × EngineState)
    (st : EngineState) : Option VkError × EngineState :=
  match check st with
  | (some e, st1) => (some e, st1)
  | (none, st1) =>
    if hasFinishedCommands st1 then rel st1 else (none, st1)

/-- `CustomTask`: the task kinds dispatched through the async worker
(CommandProcessor.h lines 96-110). -/
inductive CustomTask where
  | invalid
  | flushWaitSemaphores
  | processOutsideRenderPassCommands
  | processRenderPassCommands
  | flushAndQueueSubmit
  | oneOffQueueSubmit
  | present
deriving DecidableEq, Repr

/-- `kMaxCommandProcessorTasksLimit` (CommandProcessor.h line 34). -/
def kMaxCommandProcessorTasksLimit : Nat := 16

/-- `kInFlightCommandsLimit` (CommandProcessor.h line 35). -/
def kInFlightCommandsLimit : Nat := 50

/-- `kMaxFinishedCommandsLimit` (CommandProcessor.h line 36). -/
def kMaxFinishedCommandsLimit : Nat := 64

/-- Label of a transition of the async dispatcher's bounded task queue. -/
inductive DispatchLabel where
  | enqueueTask (t : CustomTask)
  | dequeueTask
deriving DecidableEq, Repr

/-- Modelled from the spec: transitions of the `CommandProcessor` task queue
(`mTaskQueue`, an `angle::FixedQueue` of capacity
`kMaxCommandProcessorTasksLimit`; FixedQueue.h is not in src/).  An enqueue
is only enabled when the queue is below capacity — a caller finding the
queue full blocks, so no enqueue transition exists for it until the worker
dequeues; a task is never dropped or overwritten.  The worker dequeues one
task from the front. -/
inductive DispatchStep : List CustomTask → DispatchLabel → List CustomTask → Prop where
  | enqueue (q : List CustomTask) (t : CustomTask)
      (h : q.length < kMaxCommandProcessorTasksLimit) :
      DispatchStep q (DispatchLabel.enqueueTask t) (q ++ [t])
  | dequeue (q : List CustomTask) (t : CustomTask) :
      DispatchStep (t :: q) DispatchLabel.dequeueTask q

/-- A task-queue state reachable from the empty queue. -/
def DispatchReachable (q : List CustomTask) : Prop :=
  Relation.ReflTransGen (fun a b => ∃ l, DispatchStep a l b) [] q

/-- `angle::Result`: Continue on success, Stop on error. -/
inductive AngleResult where
  | Continue
  | Stop
deriving DecidableEq, Repr

/-- `VK_NOT_READY`, the initial value of `lastPresentResult`
(CommandProcessor.h line 93). -/
def VK_NOT_READY : Int := 1

/-- `SwapchainStatus` (CommandProcessor.h lines 90-94): the pending flag and
the last native present result code. -/
structure SwapchainStatus where
  isPending : Bool
  lastPresentResult : Int
deriving DecidableEq, Repr

/-- Modelled from the spec: `CommandQueue::queuePresent` (body not in src/;
header comment line 522: errors from present are not considered to be
fatal).  `native` is the result code of the native present call.  The call
returns no engine error — modelled by the `AngleResult` component always
being `Continue` — and threads the native code back only through the
caller-supplied `SwapchainStatus`, clearing its pending flag. -/
def queuePresent (native : Int) (status : SwapchainStatus) :
    AngleResult × SwapchainStatus :=
  (AngleResult.Continue,
    { status with isPending := false, lastPresentResult := native })

/-- Modelled from the spec: a single step of the submission engine.  A
submission uses a serial previously reserved on its index (at most the
enqueued watermark) and strictly above the already-submitted watermark
(serials on one index are submitted in increasing order; advancing a
watermark backward is a programming error per the spec). -/
inductive Step : EngineState → EngineState → Prop where
  | enqueue (st : EngineState) (i : SerialIndex) :
      Step st
        { st with
          lastEnqueuedSerials :=
            setSerial st.lastEnqueuedSerials i (st.lastEnqueuedSerials i + 1) }
  | submitOk (st : EngineState) (b : CommandBatch)
      (hlo : st.lastSubmittedSerials b.index < b.serial)
      (hhi : b.serial ≤ st.lastEnqueuedSerials b.index) :
      Step st (queueSubmitLocked none b st).2
  | submitFail (st : EngineState) (b : CommandBatch) (e : VkError) :
      Step st (queueSubmitLocked (some e) b st).2
  | check (st : EngineState) (signaled : CommandBatch → Bool) :
      Step st (checkCompletedCommandsLocked signaled st)
  | deviceLost (st : EngineState) :
      Step st (handleDeviceLost st)
  | releaseFinished (st : EngineState) :
      Step st (releaseFinishedCommandsLocked st)

/-- The initial engine state: empty queues, all watermarks zero. -/
def initState : EngineState :=
  { inFlight := []
    finished := []
    lastCompletedSerials := fun _ => 0
    lastSubmittedSerials := fun _ => 0
    lastEnqueuedSerials := fun _ => 0 }

/-- An engine state reachable from the initial state. -/
def Reachable (st : EngineState) : Prop :=
  Relation.ReflTransGen Step initState st

/-- Submission order on batches: on the same index, the earlier batch has
the strictly smaller serial. -/
def batchOrd (a b : CommandBatch) : Prop :=
  a.index = b.index → a.serial < b.serial

/-- The engine's state invariant: watermarks are ordered per index, every
in-flight batch sits strictly above the completed watermark and at or below
the submitted watermark of its index, and the in-flight queue is in
submission order per index. -/
structure Inv (st : EngineState) : Prop where
  completed_le_submitted :
    ∀ i, st.lastCompletedSerials i ≤ st.lastSubmittedSerials i
  submitted_le_enqueued :
    ∀ i, st.lastSubmittedSerials i ≤ st.lastEnqueuedSerials i
  inflight_gt_completed :
    ∀ b ∈ st.inFlight, st.lastCompletedSerials b.index < b.serial
  inflight_le_submitted :
    ∀ b ∈ st.inFlight, b.serial ≤ st.lastSubmittedSerials b.index
  inflight_ordered : st.inFlight.Pairwise batchOrd

/-- Concrete engine state used to witness the theorems with hypotheses:
two batches in flight on index 0 with serials 1 and 2, both submitted. -/
def exampleState : EngineState :=
  { inFlight := [⟨0, 1⟩, ⟨0, 2⟩]
    finished := []
    lastCompletedSerials := fun _ => 0
    lastSubmittedSerials := fun i => if i = 0 then 2 else 0
    lastEnqueuedSerials := fun i => if i = 0 then 2 else 0 }

/-- Fence oracle for the witness: only the first batch's fence is signaled. -/
def exampleSignaled : CommandBatch → Bool := fun b => b.serial == 1

/-- Completion-check double used to witness the cleanup control flow. -/
def exampleCheck : EngineState → Option VkError × EngineState := fun st => (none, st)

/-- Release double used to witness the cleanup control flow. -/
def exampleRelease : EngineState → Option VkError × EngineState :=
  fun st => (none, releaseFinishedCommandsLocked st)

theorem checkCompletedLoop_fst (s : CommandBatch → Bool) (l : List CommandBatch) :
    ∀ c, (checkCompletedLoop s l c).1 = l.dropWhile s := by
  induction l with
  | nil => intro c; simp [checkCompletedLoop, List.dropWhile]
  | cons b rest ih =>
    intro c
    by_cases h : s b <;> simp [checkCompletedLoop, List.dropWhile, h, ih]

theorem checkCompletedLoop_moved (s : CommandBatch → Bool) (l : List CommandBatch) :
    ∀ c, (checkCompletedLoop s l c).2.1 = l.takeWhile s := by
  induction l with
  | nil => intro c; simp [checkCompletedLoop, List.takeWhile]
  | cons b rest ih =>
    intro c
    by_cases h : s b <;> simp [checkCompletedLoop, List.takeWhile, h, ih]

theorem checkCompletedLoop_completed (s : CommandBatch → Bool) (l : List CommandBatch) :
    ∀ c, (checkCompletedLoop s l c).2.2 = (l.takeWhile s).foldl advanceCompleted c := by
  induction l with
  | nil => intro c; simp [checkCompletedLoop, List.takeWhile]
  | cons b rest ih =>
    intro c
    by_cases h : s b <;> simp [checkCompletedLoop, List.takeWhile, h, ih]

theorem foldl_advance_cases (p : List CommandBatch) :
    ∀ (c : SerialArray) (i : SerialIndex),
      (p.foldl advanceCompleted c) i = c i ∨
        ∃ b ∈ p, b.index = i ∧ (p.foldl advanceCompleted c) i = b.serial := by
  induction p with
  | nil => intro c i; left; rfl
  | cons b p ih =>
    intro c i
    rcases ih (advanceCompleted c b) i with h | ⟨b1, hb1, hidx, hval⟩
    · rw [List.foldl_cons] at *
      by_cases hi : i = b.index
      · right
        exact ⟨b, List.mem_cons_self b p, hi.symm,
          by rw [h, advanceCompleted, setSerial, if_pos hi]⟩
      · left
        rw [h, advanceCompleted, setSerial, if_neg hi]
    · right
      exact ⟨b1, List.mem_cons_of_mem b hb1, hidx, hval⟩

theorem advance_hyp_tail (a : CommandBatch) (p : List CommandBatch) (c : SerialArray)
    (h1 : ∀ b ∈ a :: p, c b.index ≤ b.serial)
    (h2 : (a :: p).Pairwise batchOrd) :
    ∀ b ∈ p, (advanceCompleted c a) b.index ≤ b.serial := by
  intro b hb
  rw [advanceCompleted, setSerial]
  by_cases hi : b.index = a.index
  · rw [if_pos hi]
    exact le_of_lt ((List.pairwise_cons.mp h2).1 b hb hi.symm)
  · rw [if_neg hi]
    exact h1 b (List.mem_cons_of_mem a hb)

theorem foldl_advance_mono (p : List CommandBatch) :
    ∀ (c : SerialArray),
      (∀ b ∈ p, c b.index ≤ b.serial) → p.Pairwise batchOrd →
        ∀ i, c i ≤ (p.foldl advanceCompleted c) i := by
  induction p with
  | nil => intro c _ _ i; exact le_refl _
  | cons a p ih =>
    intro c h1 h2 i
    rw [List.foldl_cons]
    refine le_trans ?_ (ih (advanceCompleted c a)
      (advance_hyp_tail a p c h1 h2) (List.pairwise_cons.mp h2).2 i)
    rw [advanceCompleted, setSerial]
    by_cases hi : i = a.index
    · rw [if_pos hi, hi]
      exact h1 a (List.mem_cons_self a p)
    · rw [if_neg hi]

theorem foldl_advance_lt (p : List CommandBatch) :
    ∀ (c : SerialArray) (b1 : CommandBatch),
      c b1.index < b1.serial →
      (∀ b ∈ p, b.index = b1.index → b.serial < b1.serial) →
        (p.foldl advanceCompleted c) b1.index < b1.serial := by
  induction p with
  | nil => intro c b1 h1 _; exact h1
  | cons a p ih =>
    intro c b1 h1 h2
    rw [List.foldl_cons]
    refine ih (advanceCompleted c a) b1 ?_ fun b hb => h2 b (List.mem_cons_of_mem a hb)
    rw [advanceCompleted, setSerial]
    by_cases hi : b1.index = a.index
    · rw [if_pos hi]
      exact h2 a (List.mem_cons_self a p) hi.symm
    · rw [if_neg hi]
      exact h1

theorem foldl_advance_ge (p : List CommandBatch) :
    ∀ (c : SerialArray),
      (∀ b ∈ p, c b.index ≤ b.serial) → p.Pairwise batchOrd →
        ∀ b ∈ p, b.serial ≤ (p.foldl advanceCompleted c) b.index := by
  induction p with
  | nil => intro c _ _ b hb; cases hb
  | cons a p ih =>
    intro c h1 h2 b hb
    rw [List.foldl_cons]
    rcases List.mem_cons.mp hb with rfl | hb
    · have hmono := foldl_advance_mono p (advanceCompleted c b)
        (advance_hyp_tail b p c h1 h2) (List.pairwise_cons.mp h2).2 b.index
      have hown : (advanceCompleted c b) b.index = b.serial := by
        rw [advanceCompleted, setSerial, if_pos rfl]
      rw [hown] at hmono
      exact hmono
    · exact ih (advanceCompleted c a) (advance_hyp_tail a p c h1 h2)
        (List.pairwise_cons.mp h2).2 b hb

theorem mem_takeWhile_mem {α : Type} (p : α → Bool) (l : List α) :
    ∀ b ∈ l.takeWhile p, b ∈ l := by
  intro b hb
  rw [← List.takeWhile_append_dropWhile p l]
  exact List.mem_append_left _ hb

theorem mem_dropWhile_mem {α : Type} (p : α → Bool) (l : List α) :
    ∀ b ∈ l.dropWhile p, b ∈ l := by
  intro b hb
  rw [← List.takeWhile_append_dropWhile p l]
  exact List.mem_append_right _ hb

theorem head_dropWhile_false {α : Type} (p : α → Bool) (l : List α) (b : α)
    (hb : (l.dropWhile p).head? = some b) : p b = false := by
  have h := List.head?_dropWhile_not p l
  rw [hb] at h
  simpa using h

theorem inflight_split_pairwise (st : EngineState) (signaled : CommandBatch → Bool)
    (h : Inv st) :
    (st.inFlight.takeWhile signaled).Pairwise batchOrd ∧
      (st.inFlight.dropWhile signaled).Pairwise batchOrd ∧
      ∀ a ∈ st.inFlight.takeWhile signaled,
        ∀ b ∈ st.inFlight.dropWhile signaled, batchOrd a b := by
  have hpw :
      (st.inFlight.takeWhile signaled ++ st.inFlight.dropWhile signaled).Pairwise batchOrd := by
    rw [List.takeWhile_append_dropWhile]
    exact h.inflight_ordered
  exact List.pairwise_append.mp hpw

theorem inv_init : Inv initState :=
  ⟨fun _ => le_refl 0, fun _ => le_refl 0,
   fun b hb => absurd hb (List.not_mem_nil b),
   fun b hb => absurd hb (List.not_mem_nil b),
   List.Pairwise.nil⟩

theorem inv_enqueue (st : EngineState) (i : SerialIndex) (h : Inv st) :
    Inv { st with lastEnqueuedSerials :=
            setSerial st.lastEnqueuedSerials i (st.lastEnqueuedSerials i + 1) } := by
  refine ⟨h.completed_le_submitted, ?_, h.inflight_gt_completed,
    h.inflight_le_submitted, h.inflight_ordered⟩
  intro j
  show st.lastSubmittedSerials j ≤
    setSerial st.lastEnqueuedSerials i (st.lastEnqueuedSerials i + 1) j
  rw [setSerial]
  by_cases hj : j = i
  · rw [if_pos hj, hj]
    exact le_trans (h.submitted_le_enqueued i) (Nat.le_succ _)
  · rw [if_neg hj]
    exact h.submitted_le_enqueued j

theorem inv_submitOk (st : EngineState) (b : CommandBatch)
    (hlo : st.lastSubmittedSerials b.index < b.serial)
    (hhi : b.serial ≤ st.lastEnqueuedSerials b.index) (h : Inv st) :
    Inv (queueSubmitLocked none b st).2 := by
  refine ⟨?_, ?_, ?_, ?_, ?_⟩
  · intro i
    show st.lastCompletedSerials i ≤ setSerial st.lastSubmittedSerials b.index b.serial i
    rw [setSerial]
    by_cases hi : i = b.index
    · rw [if_pos hi, hi]
      exact le_of_lt (lt_of_le_of_lt (h.completed_le_submitted b.index) hlo)
    · rw [if_neg hi]
      exact h.completed_le_submitted i
  · intro i
    show setSerial st.lastSubmittedSerials b.index b.serial i ≤ st.lastEnqueuedSerials i
    rw [setSerial]
    by_cases hi : i = b.index
    · rw [if_pos hi, hi]
      exact hhi
    · rw [if_neg hi]
      exact h.submitted_le_enqueued i
  · intro b1 hb1
    show st.lastCompletedSerials b1.index < b1.serial
    rcases List.mem_append.mp hb1 with hb1 | hb1
    · exact h.inflight_gt_completed b1 hb1
    · rw [List.mem_singleton] at hb1
      subst hb1
      exact lt_of_le_of_lt (h.completed_le_submitted b1.index) hlo
  · intro b1 hb1
    show b1.serial ≤ setSerial st.lastSubmittedSerials b.index b.serial b1.index
    rw [setSerial]
    rcases List.mem_append.mp hb1 with hb1 | hb1
    · by_cases hi : b1.index = b.index
      · rw [if_pos hi]
        refine le_trans (h.inflight_le_submitted b1 hb1) ?_
        rw [hi]
        exact le_of_lt hlo
      · rw [if_neg hi]
        exact h.inflight_le_submitted b1 hb1
    · rw [List.mem_singleton] at hb1
      subst hb1
      rw [if_pos rfl]
  · show (st.inFlight ++ [b]).Pairwise batchOrd
    rw [List.pairwise_append]
    refine ⟨h.inflight_ordered, List.pairwise_singleton _ _, ?_⟩
    intro a ha b1 hb1
    rw [List.mem_singleton] at hb1
    subst hb1
    intro hidx
    refine lt_of_le_of_lt (le_trans (h.inflight_le_submitted a ha) ?_) hlo
    rw [hidx]

theorem inv_check (st : EngineState) (signaled : CommandBatch → Bool) (h : Inv st) :
    Inv (checkCompletedCommandsLocked signaled st) := by
  obtain ⟨hpw_tw, hpw_dw, hcross⟩ := inflight_split_pairwise st signaled h
  have h1 : ∀ b ∈ st.inFlight.takeWhile signaled,
      st.lastCompletedSerials b.index ≤ b.serial :=
    fun b hb => le_of_lt (h.inflight_gt_completed b (mem_takeWhile_mem signaled _ b hb))
  refine ⟨?_, ?_, ?_, ?_, ?_⟩
  · intro i
    show (checkCompletedLoop signaled st.inFlight st.lastCompletedSerials).2.2 i ≤
      st.lastSubmittedSerials i
    rw [checkCompletedLoop_completed]
    rcases foldl_advance_cases (st.inFlight.takeWhile signaled) st.lastCompletedSerials i with
      hc | ⟨b, hb, hbi, hbv⟩
    · rw [hc]
      exact h.completed_le_submitted i
    · rw [hbv, ← hbi]
      exact h.inflight_le_submitted b (mem_takeWhile_mem signaled _ b hb)
  · intro i
    exact h.submitted_le_enqueued i
  · intro b1 hb1
    show (checkCompletedLoop signaled st.inFlight st.lastCompletedSerials).2.2 b1.index < b1.serial
    rw [checkCompletedLoop_completed]
    have hb1' : b1 ∈ st.inFlight.dropWhile signaled := by
      have hfst := checkCompletedLoop_fst signaled st.inFlight st.lastCompletedSerials
      rw [← hfst]
      exact hb1
    exact foldl_advance_lt _ _ b1
      (h.inflight_gt_completed b1 (mem_dropWhile_mem signaled _ b1 hb1'))
      (fun b hb hidx => hcross b hb b1 hb1' hidx)
  · intro b1 hb1
    have hb1' : b1 ∈ st.inFlight.dropWhile signaled := by
      have hfst := checkCompletedLoop_fst signaled st.inFlight st.lastCompletedSerials
      rw [← hfst]
      exact hb1
    exact h.inflight_le_submitted b1 (mem_dropWhile_mem signaled _ b1 hb1')
  · show (checkCompletedLoop signaled st.inFlight st.lastCompletedSerials).1.Pairwise batchOrd
    rw [checkCompletedLoop_fst]
    exact hpw_dw

theorem inv_deviceLost (st : EngineState) (h : Inv st) : Inv (handleDeviceLost st) := by
  refine ⟨?_, ?_, ?_, ?_, ?_⟩
  · intro i
    exact le_refl (st.lastSubmittedSerials i)
  · intro i
    exact h.submitted_le_enqueued i
  · intro b hb
    exact absurd hb (List.not_mem_nil b)
  · intro b hb
    exact absurd hb (List.not_mem_nil b)
  · exact List.Pairwise.nil

theorem inv_release (st : EngineState) (h : Inv st) :
    Inv (releaseFinishedCommandsLocked st) :=
  ⟨h.completed_le_submitted, h.submitted_le_enqueued, h.inflight_gt_completed,
   h.inflight_le_submitted, h.inflight_ordered⟩

theorem inv_step (st st' : EngineState) (h : Inv st) (hs : Step st st') : Inv st' := by
  cases hs with
  | enqueue i => exact inv_enqueue st i h
  | submitOk b hlo hhi => exact inv_submitOk st b hlo hhi h
  | submitFail b e => exact h
  | check signaled => exact inv_check st signaled h
  | deviceLost => exact inv_deviceLost st h
  | releaseFinished => exact inv_release st h

theorem reachable_inv (st : EngineState) (h : Reachable st) : Inv st := by
  induction h with
  | refl => exact inv_init
  | tail hsteps hstep ih => exact inv_step _ _ ih hstep

theorem check_completed_mono (st : EngineState) (signaled : CommandBatch → Bool)
    (h : Inv st) :
    ∀ i, st.lastCompletedSerials i ≤
      (checkCompletedCommandsLocked signaled st).lastCompletedSerials i := by
  intro i
  obtain ⟨hpw_tw, _, _⟩ := inflight_split_pairwise st signaled h
  have h1 : ∀ b ∈ st.inFlight.takeWhile signaled,
      st.lastCompletedSerials b.index ≤ b.serial :=
    fun b hb => le_of_lt (h.inflight_gt_completed b (mem_takeWhile_mem signaled _ b hb))
  show st.lastCompletedSerials i ≤
    (checkCompletedLoop signaled st.inFlight st.lastCompletedSerials).2.2 i
  rw [checkCompletedLoop_completed]
  exact foldl_advance_mono _ _ h1 hpw_tw i

theorem step_mono (st st' : EngineState) (h : Inv st) (hs : Step st st') :
    ∀ i, st.lastCompletedSerials i ≤ st'.lastCompletedSerials i ∧
      st.lastSubmittedSerials i ≤ st'.lastSubmittedSerials i ∧
      st.lastEnqueuedSerials i ≤ st'.lastEnqueuedSerials i := by
  cases hs with
  | enqueue j =>
    intro i
    refine ⟨le_refl _, le_refl _, ?_⟩
    show st.lastEnqueuedSerials i ≤
      setSerial st.lastEnqueuedSerials j (st.lastEnqueuedSerials j + 1) i
    rw [setSerial]
    by_cases hij : i = j
    · rw [if_pos hij, hij]
      exact Nat.le_succ _
    · rw [if_neg hij]
  | submitOk b hlo hhi =>
    intro i
    refine ⟨le_refl _, ?_, le_refl _⟩
    show st.lastSubmittedSerials i ≤ setSerial st.lastSubmittedSerials b.index b.serial i
    rw [setSerial]
    by_cases hib : i = b.index
    · rw [if_pos hib, hib]
      exact le_of_lt hlo
    · rw [if_neg hib]
  | submitFail b e =>
    intro i
    exact ⟨le_refl _, le_refl _, le_refl _⟩
  | check signaled =>
    intro i
    exact ⟨check_completed_mono st signaled h i, le_refl _, le_refl _⟩
  | deviceLost =>
    intro i
    exact ⟨h.completed_le_submitted i, le_refl _, le_refl _⟩
  | releaseFinished =>
    intro i
    exact ⟨le_refl _, le_refl _, le_refl _⟩

theorem resourceUseLE_mono (use : ResourceUse) (w w' : SerialArray)
    (hw : ∀ i, w i ≤ w' i) (h : resourceUseLE use w = true) :
    resourceUseLE use w' = true := by
  simp only [resourceUseLE, List.all_eq_true, List.mem_range, decide_eq_true_eq] at h ⊢
  intro i hi
  exact le_trans (h i hi) (hw i)

theorem dispatch_reachable_len (q : List CustomTask) (h : DispatchReachable q) :
    q.length ≤ kMaxCommandProcessorTasksLimit := by
  induction h with
  | refl => exact Nat.zero_le _
  | tail hsteps hstep ih =>
    obtain ⟨l, hstep⟩ := hstep
    cases hstep with
    | enqueue q1 t hlt =>
      rw [List.length_append, List.length_singleton]
      exact Nat.succ_le_of_lt hlt
    | dequeue q1 t =>
      rw [List.length_cons] at ih
      exact le_trans (Nat.le_succ _) ih

theorem inv_exampleState : Inv exampleState := by
  refine ⟨fun i => Nat.zero_le _, fun i => le_refl _, ?_, ?_, ?_⟩
  · intro b hb
    have hb' : b ∈ [(⟨0, 1⟩ : CommandBatch), ⟨0, 2⟩] := hb
    rcases List.mem_cons.mp hb' with rfl | hb'
    · decide
    · rw [List.mem_singleton] at hb'
      subst hb'
      decide
  · intro b hb
    have hb' : b ∈ [(⟨0, 1⟩ : CommandBatch), ⟨0, 2⟩] := hb
    rcases List.mem_cons.mp hb' with rfl | hb'
    · decide
    · rw [List.mem_singleton] at hb'
      subst hb'
      decide
  · show List.Pairwise batchOrd [(⟨0, 1⟩ : CommandBatch), ⟨0, 2⟩]
    refine List.Pairwise.cons ?_ (List.pairwise_singleton _ _)
    intro b hb
    rw [List.mem_singleton] at hb
    subst hb
    intro _
    decide

/-- Claim C1: on any state satisfying the engine invariant, the completion
check removes exactly the signaled prefix of the in-flight queue, appends
it in order to the finished queue, stops at the first not-yet-signaled
batch, advances the completed watermark of each moved batch's index to that
batch's serial, and reports every moved batch finished while reporting no
remaining batch finished — so batch k is never reported finished while
batch k-1 of the same index is unfinished, even if batch k's fence
signaled first. -/
theorem checkCompleted_signaled_front (st : EngineState)
    (signaled : CommandBatch → Bool) (h : Inv st) :
    (checkCompletedCommandsLocked signaled st).inFlight =
        st.inFlight.dropWhile signaled ∧
      (checkCompletedCommandsLocked signaled st).finished =
        st.finished ++ st.inFlight.takeWhile signaled ∧
      (∀ b ∈ st.inFlight.takeWhile signaled, signaled b = true) ∧
      (∀ b, (checkCompletedCommandsLocked signaled st).inFlight.head? = some b →
        signaled b = false) ∧
      (checkCompletedCommandsLocked signaled st).lastCompletedSerials =
        (st.inFlight.takeWhile signaled).foldl advanceCompleted
          st.lastCompletedSerials ∧
      (∀ b ∈ st.inFlight.takeWhile signaled,
        hasQueueSerialFinished (checkCompletedCommandsLocked signaled st)
          ⟨b.index, b.serial⟩ = true) ∧
      (∀ b ∈ (checkCompletedCommandsLocked signaled st).inFlight,
        hasQueueSerialFinished (checkCompletedCommandsLocked signaled st)
          ⟨b.index, b.serial⟩ = false) := by
  obtain ⟨hpw_tw, hpw_dw, hcross⟩ := inflight_split_pairwise st signaled h
  have h1 : ∀ b ∈ st.inFlight.takeWhile signaled,
      st.lastCompletedSerials b.index ≤ b.serial :=
    fun b hb => le_of_lt (h.inflight_gt_completed b (mem_takeWhile_mem signaled _ b hb))
  have hfst : (checkCompletedCommandsLocked signaled st).inFlight =
      st.inFlight.dropWhile signaled :=
    checkCompletedLoop_fst signaled st.inFlight st.lastCompletedSerials
  have hmoved : (checkCompletedCommandsLocked signaled st).finished =
      st.finished ++ st.inFlight.takeWhile signaled := by
    show st.finished ++
      (checkCompletedLoop signaled st.inFlight st.lastCompletedSerials).2.1 =
        st.finished ++ st.inFlight.takeWhile signaled
    rw [checkCompletedLoop_moved]
  have hcompleted : (checkCompletedCommandsLocked signaled st).lastCompletedSerials =
      (st.inFlight.takeWhile signaled).foldl advanceCompleted st.lastCompletedSerials :=
    checkCompletedLoop_completed signaled st.inFlight st.lastCompletedSerials
  refine ⟨hfst, hmoved, ?_, ?_, hcompleted, ?_, ?_⟩
  · intro b hb
    exact List.mem_takeWhile_imp hb
  · intro b hb
    rw [hfst] at hb
    exact head_dropWhile_false signaled st.inFlight b hb
  · intro b hb
    simp only [hasQueueSerialFinished]
    rw [decide_eq_true_eq]
    show b.serial ≤ (checkCompletedCommandsLocked signaled st).lastCompletedSerials b.index
    rw [hcompleted]
    exact foldl_advance_ge _ _ h1 hpw_tw b hb
  · intro b hb
    rw [hfst] at hb
    simp only [hasQueueSerialFinished]
    rw [decide_eq_false_iff_not, not_le]
    show (checkCompletedCommandsLocked signaled st).lastCompletedSerials b.index < b.serial
    rw [hcompleted]
    exact foldl_advance_lt _ _ b
      (h.inflight_gt_completed b (mem_dropWhile_mem signaled _ b hb))
      (fun b1 hb1 hidx => hcross b1 hb1 b hb hidx)

/-- Witness for claim C1: in the concrete state with batches (index 0,
serial 1) and (index 0, serial 2) in flight and only the first fence
signaled, the check moves exactly batch 1 and leaves batch 2 in flight. -/
theorem checkCompleted_signaled_front_w :
    (checkCompletedCommandsLocked exampleSignaled exampleState).inFlight =
        exampleState.inFlight.dropWhile exampleSignaled ∧
      (checkCompletedCommandsLocked exampleSignaled exampleState).finished =
        exampleState.finished ++ exampleState.inFlight.takeWhile exampleSignaled :=
  ⟨(checkCompleted_signaled_front exampleState exampleSignaled inv_exampleState).1,
   (checkCompleted_signaled_front exampleState exampleSignaled inv_exampleState).2.1⟩

/-- Claim C2: in every reachable engine state the completed watermark of
each index is at most the submitted watermark, which is at most the
enqueued watermark, and no operation (step) moves any of the three
watermarks backward. -/
theorem watermarks_ordered_monotone (st : EngineState) (h : Reachable st) :
    (∀ i, st.lastCompletedSerials i ≤ st.lastSubmittedSerials i ∧
        st.lastSubmittedSerials i ≤ st.lastEnqueuedSerials i) ∧
      ∀ st', Step st st' →
        ∀ i, st.lastCompletedSerials i ≤ st'.lastCompletedSerials i ∧
          st.lastSubmittedSerials i ≤ st'.lastSubmittedSerials i ∧
          st.lastEnqueuedSerials i ≤ st'.lastEnqueuedSerials i := by
  have hinv := reachable_inv st h
  exact ⟨fun i => ⟨hinv.completed_le_submitted i, hinv.submitted_le_enqueued i⟩,
    fun st' hs => step_mono st st' hinv hs⟩

/-- Witness for claim C2 at the initial state. -/
theorem watermarks_ordered_monotone_w :
    initState.lastCompletedSerials 0 ≤ initState.lastSubmittedSerials 0 :=
  ((watermarks_ordered_monotone initState Relation.ReflTransGen.refl).1 0).1

/-- Claim C3: when the native queue-submit call fails, `submitCommands` and
`queueSubmitOneOff` return the error to the caller and leave the engine
state — in particular the in-flight queue — unchanged; no retry occurs. -/
theorem submit_failure_not_enqueued (e : VkError) (b : CommandBatch)
    (st : EngineState) :
    submitCommands (some e) b st = (some e, st) ∧
      queueSubmitOneOff (some e) b st = (some e, st) ∧
      (submitCommands (some e) b st).2.inFlight = st.inFlight ∧
      (queueSubmitOneOff (some e) b st).2.inFlight = st.inFlight :=
  ⟨rfl, rfl, rfl, rfl⟩

/-- Claim C4: after `handleDeviceLost` no batch remains in flight, every
previously in-flight batch was moved to the finished queue without any
fence wait, the completed watermark of every index equals the submitted
watermark, and every submitted resource use is observed finished, so
pending finish/waitIdle waiters are released. -/
theorem handleDeviceLost_forces_completion (st : EngineState) :
    (handleDeviceLost st).inFlight = [] ∧
      (onDeviceLostCompleteInFlight st).finished = st.finished ++ st.inFlight ∧
      (∀ i, (handleDeviceLost st).lastCompletedSerials i =
        st.lastSubmittedSerials i) ∧
      (∀ i, (handleDeviceLost st).lastCompletedSerials i =
        (handleDeviceLost st).lastSubmittedSerials i) ∧
      ∀ use : ResourceUse, hasResourceUseSubmitted st use = true →
        hasResourceUseFinished (handleDeviceLost st) use = true := by
  refine ⟨rfl, rfl, fun i => rfl, fun i => rfl, ?_⟩
  intro use hu
  exact hu

/-- Witness for claim C4: in the concrete two-batch state, a use of serial
1 on index 0 that was submitted is finished after device loss. -/
theorem handleDeviceLost_forces_completion_w :
    hasResourceUseFinished (handleDeviceLost exampleState) [1] = true :=
  (handleDeviceLost_forces_completion exampleState).2.2.2.2 [1] (by decide)

/-- Claim C5: `hasResourceUseFinished` returns true exactly when, for every
serial index recorded in the use, the completed watermark of that index is
at least the serial recorded for that index. -/
theorem hasResourceUseFinished_iff (st : EngineState) (use : ResourceUse) :
    hasResourceUseFinished st use = true ↔
      ∀ i < use.length, use.getD i 0 ≤ st.lastCompletedSerials i := by
  simp [hasResourceUseFinished, resourceUseLE, List.all_eq_true, List.mem_range]

/-- Claim C6: every reachable task-queue state holds at most
`kMaxCommandProcessorTasksLimit` (= 16) tasks; when the queue is full no
enqueue transition exists (the caller blocks), an enabled enqueue appends
the task without dropping or overwriting any queued task, and after the
worker dequeues an enqueue is enabled again. -/
theorem taskQueue_bounded_blocking (q : List CustomTask) (h : DispatchReachable q) :
    q.length ≤ kMaxCommandProcessorTasksLimit ∧
      (q.length = kMaxCommandProcessorTasksLimit →
        ∀ t q1, ¬ DispatchStep q (DispatchLabel.enqueueTask t) q1) ∧
      (∀ t q1, DispatchStep q (DispatchLabel.enqueueTask t) q1 → q1 = q ++ [t]) ∧
      ∀ q1, DispatchStep q DispatchLabel.dequeueTask q1 →
        ∀ t, DispatchStep q1 (DispatchLabel.enqueueTask t) (q1 ++ [t]) := by
  refine ⟨dispatch_reachable_len q h, ?_, ?_, ?_⟩
  · intro hfull t q1 hstep
    cases hstep with
    | enqueue _ _ hlt =>
      rw [hfull] at hlt
      exact absurd hlt (lt_irrefl _)
  · intro t q1 hstep
    cases hstep with
    | enqueue _ _ hlt => rfl
  · intro q1 hstep t
    cases hstep with
    | dequeue _ t0 =>
      refine DispatchStep.enqueue q1 t ?_
      have hlen := dispatch_reachable_len (t0 :: q1) h
      rw [List.length_cons] at hlen
      exact Nat.lt_of_succ_le hlen

/-- Witness for claim C6: the empty queue is reachable and within the
capacity bound. -/
theorem taskQueue_bounded_blocking_w :
    ([] : List CustomTask).length ≤ kMaxCommandProcessorTasksLimit :=
  (taskQueue_bounded_blocking [] Relation.ReflTransGen.refl).1

/-- Claim C7: `queuePresent` never returns an engine error — its result is
always `Continue`, whatever the native present result code — and the
native code is reported only through the caller-supplied swapchain status
object, whose pending flag is cleared. -/
theorem queuePresent_nonfatal (native : Int) (status : SwapchainStatus) :
    (queuePresent native status).1 = AngleResult.Continue ∧
      (queuePresent native status).2.lastPresentResult = native ∧
      (queuePresent native status).2.isPending = false :=
  ⟨rfl, rfl, rfl⟩

/-- Claim C8: `kInFlightCommandsLimit ≤ kMaxFinishedCommandsLimit` holds
with the header's values 50 and 64 (the header checks it with a static
assertion, so the engine cannot be constructed unless it holds). -/
theorem commandLimits_ordered :
    kInFlightCommandsLimit ≤ kMaxFinishedCommandsLimit ∧
      kInFlightCommandsLimit = 50 ∧ kMaxFinishedCommandsLimit = 64 := by
  decide

/-- Claim C9: in every reachable engine state, a resource use or queue
serial observed finished is also observed submitted. -/
theorem finished_implies_submitted (st : EngineState) (h : Reachable st) :
    (∀ use : ResourceUse, hasResourceUseFinished st use = true →
        hasResourceUseSubmitted st use = true) ∧
      ∀ qs : QueueSerial, hasQueueSerialFinished st qs = true →
        hasQueueSerialSubmitted st qs = true := by
  have hinv := reachable_inv st h
  constructor
  · intro use hu
    exact resourceUseLE_mono use _ _ hinv.completed_le_submitted hu
  · intro qs hq
    simp only [hasQueueSerialFinished, decide_eq_true_eq] at hq
    simp only [hasQueueSerialSubmitted, decide_eq_true_eq]
    exact le_trans hq (hinv.completed_le_submitted qs.index)

/-- Witness for claim C9 at the initial state. -/
theorem finished_implies_submitted_w :
    hasResourceUseSubmitted initState [0] = true :=
  (finished_implies_submitted initState Relation.ReflTransGen.refl).1 [0] (by decide)

/-- Claim C10: `checkAndCleanupCompletedCommands` returns the completion
check's error unchanged, applying no release; when the check succeeds and
the finished queue is empty it returns without releasing; the release step
runs exactly when the finished queue is non-empty after the check. -/
theorem checkAndCleanup_control
    (check rel : EngineState → Option VkError × EngineState) (st : EngineState) :
    (∀ e st1, check st = (some e, st1) →
        checkAndCleanupCompletedCommands check rel st = (some e, st1)) ∧
      (∀ st1, check st = (none, st1) → hasFinishedCommands st1 = false →
        checkAndCleanupCompletedCommands check rel st = (none, st1)) ∧
      ∀ st1, check st = (none, st1) → hasFinishedCommands st1 = true →
        checkAndCleanupCompletedCommands check rel st = rel st1 := by
  refine ⟨?_, ?_, ?_⟩
  · intro e st1 hc
    unfold checkAndCleanupCompletedCommands
    rw [hc]
  · intro st1 hc hf
    unfold checkAndCleanupCompletedCommands
    rw [hc]
    show (if hasFinishedCommands st1 then rel st1 else (none, st1)) = (none, st1)
    rw [hf]
    rfl
  · intro st1 hc hf
    unfold checkAndCleanupCompletedCommands
    rw [hc]
    show (if hasFinishedCommands st1 then rel st1 else (none, st1)) = rel st1
    rw [hf]
    rfl

/-- Witness for claim C10: with a check double that finds nothing finished
on the initial state, the call performs no release and returns success. -/
theorem checkAndCleanup_control_w :
    checkAndCleanupCompletedCommands exampleCheck exampleRelease initState =
      (none, initState) :=
  (checkAndCleanup_control exampleCheck exampleRelease initState).2.1 initState
    rfl (by decide)

end AngleVk
